import Mathlib

/-!
Verification development for the Music Media Log Analyzer
(`music_log_analyzer.py`).

The Python source is shallowly embedded below:
* the regex-based line parser (`parse_log_line`) is embedded together with
  an executable backtracking matcher for the one regex the program uses,
  reproducing Python's leftmost-match and greedy/lazy preference order;
* the aggregation steps (`Counter`, `most_common`, pandas `value_counts`,
  `str.split`, minute resampling, `idxmax`) are embedded as list functions;
* console output and the chart file are modelled as an explicit event list;
* the two `open` calls are modelled at byte level with a UTF-8 decoder,
  since they differ in their error handling.

Machine integers do not occur (Python integers are unbounded); numbers are
modelled as `Nat`/`Int`.  Fallible operations (`int(...)`, strict decoding)
return `Except`.
-/

/-! ## Python primitives -/

/-- Python's default `str.strip()` whitespace set (ASCII part; the rare
Unicode space characters are not used anywhere in this code base). -/
def isPySpace (c : Char) : Bool :=
  c = ' ' || c = '\t' || c = '\n' || c = '\r' || c = '\x0b' || c = '\x0c'

/-- Python `line.strip()` on a character list: drop whitespace from both
ends. -/
def pyStrip (l : List Char) : List Char :=
  ((l.dropWhile isPySpace).reverse.dropWhile isPySpace).reverse

/-- ASCII decimal digit, the characters matched by the regex class `\d`
(in this ASCII log setting). -/
def isDigitC (c : Char) : Bool := '0' ≤ c && c ≤ '9'

/-- Value of a decimal digit string, most significant digit first. -/
def decNat (l : List Char) : Nat :=
  l.foldl (fun a c => a * 10 + (c.toNat - 48)) 0

/-- Python `int(s)` on a string: strip surrounding whitespace, optional
sign, then a nonempty run of decimal digits; anything else raises
`ValueError` (modelled as `Except.error`).  (Underscore digit separators,
which never occur here because the argument always comes from a `\d+`
capture, are not modelled.) -/
def pyInt (s : String) : Except String Int :=
  match pyStrip s.toList with
  | '+' :: r =>
      if r ≠ [] ∧ r.all isDigitC then Except.ok (decNat r : Int)
      else Except.error ("invalid literal for int() with base 10: " ++ s)
  | '-' :: r =>
      if r ≠ [] ∧ r.all isDigitC then Except.ok (-(decNat r : Int))
      else Except.error ("invalid literal for int() with base 10: " ++ s)
  | r =>
      if r ≠ [] ∧ r.all isDigitC then Except.ok (decNat r : Int)
      else Except.error ("invalid literal for int() with base 10: " ++ s)

/-! ## The regex

The program parses each line with

`re.split(r'(\S+) (\S+) (\S+) \[(.*?)\] "(.*?)" (\d+) (\d+) "(.*?)" "(.*?)" (\d+)', line)`

The pattern is a plain concatenation of literal characters, greedy `(\S+)`
and `(\d+)` groups, and lazy `(.*?)` groups.  We embed it as a token list
and implement Python's backtracking matcher for exactly this fragment:
greedy groups prefer the longest repetition, lazy groups the shortest,
with full backtracking.  `plusAcc`/`lazyAcc` are the in-progress states of
a repetition (they never occur in a source pattern, only during matching).
-/

inductive Tok where
  | lit (c : Char)
  | plus (cls : Char → Bool)
  | plusAcc (cls : Char → Bool) (acc : List Char)
  | lazyStar
  | lazyAcc (acc : List Char)

/-- The matcher.  `mtoks fuel ts s` matches the token sequence `ts` against
a prefix of `s`, returning the captures (in group order) and the unmatched
suffix of the preferred match, or `none`.  The preference order is
Python's: a greedy repetition first tries to extend, a lazy repetition
first tries to finish.  `fuel` only forces termination: every call
strictly decreases the measure `2*s.length + weight ts` (weights:
`plus`/`lazyStar` 2, others 1), so any fuel above that measure gives the
fuel-free semantics. -/
def mtoks : Nat → List Tok → List Char → Option (List String × List Char)
  | 0, _, _ => none
  | _ + 1, [], s => some ([], s)
  | f + 1, Tok.lit c :: ts, s =>
      match s with
      | [] => none
      | x :: s' => if x = c then mtoks f ts s' else none
  | f + 1, Tok.plus cls :: ts, s =>
      match s with
      | [] => none
      | x :: s' => if cls x then mtoks f (Tok.plusAcc cls [x] :: ts) s' else none
  | f + 1, Tok.plusAcc cls acc :: ts, s =>
      match (match s with
             | x :: s' =>
                 if cls x then mtoks f (Tok.plusAcc cls (x :: acc) :: ts) s' else none
             | [] => none) with
      | some r => some r
      | none =>
          match mtoks f ts s with
          | some (caps, rem) => some (String.mk acc.reverse :: caps, rem)
          | none => none
  | f + 1, Tok.lazyStar :: ts, s => mtoks f (Tok.lazyAcc [] :: ts) s
  | f + 1, Tok.lazyAcc acc :: ts, s =>
      match mtoks f ts s with
      | some (caps, rem) => some (String.mk acc.reverse :: caps, rem)
      | none =>
          match s with
          | x :: s' =>
              if x ≠ '\n' then mtoks f (Tok.lazyAcc (x :: acc) :: ts) s' else none
          | [] => none

/-- Existence of a match of `ts` against the WHOLE of `s` (the semantics
of `re.fullmatch`): branch order is irrelevant, all alternatives are
tried.  Used to state the spec's "must match bit-for-bit" notion. -/
def fmatch : Nat → List Tok → List Char → Bool
  | 0, _, _ => false
  | _ + 1, [], s => s.isEmpty
  | f + 1, Tok.lit c :: ts, s =>
      match s with
      | [] => false
      | x :: s' => x = c && fmatch f ts s'
  | f + 1, Tok.plus cls :: ts, s =>
      match s with
      | [] => false
      | x :: s' => cls x && (fmatch f ts s' || fmatch f (Tok.plus cls :: ts) s')
  | f + 1, Tok.plusAcc cls _ :: ts, s =>
      fmatch f ts s ||
        (match s with
         | x :: s' => cls x && fmatch f (Tok.plusAcc cls [] :: ts) s'
         | [] => false)
  | f + 1, Tok.lazyStar :: ts, s =>
      fmatch f ts s ||
        (match s with
         | x :: s' => decide (x ≠ '\n') && fmatch f (Tok.lazyStar :: ts) s'
         | [] => false)
  | f + 1, Tok.lazyAcc _ :: ts, s =>
      fmatch f ts s ||
        (match s with
         | x :: s' => decide (x ≠ '\n') && fmatch f (Tok.lazyAcc [] :: ts) s'
         | [] => false)

/-- Fuel that strictly dominates the matcher's decreasing measure, so the
fuelled matcher agrees with the fuel-free backtracking semantics. -/
def matchFuel (ts : List Tok) (s : List Char) : Nat :=
  2 * s.length + 2 * ts.length + 1

/-- The log-line pattern, group by group:
`(\S+) (\S+) (\S+) \[(.*?)\] "(.*?)" (\d+) (\d+) "(.*?)" "(.*?)" (\d+)`. -/
def logPattern : List Tok :=
  [Tok.plus (fun c => !isPySpace c), Tok.lit ' ',
   Tok.plus (fun c => !isPySpace c), Tok.lit ' ',
   Tok.plus (fun c => !isPySpace c), Tok.lit ' ',
   Tok.lit '[', Tok.lazyStar, Tok.lit ']', Tok.lit ' ',
   Tok.lit '"', Tok.lazyStar, Tok.lit '"', Tok.lit ' ',
   Tok.plus isDigitC, Tok.lit ' ',
   Tok.plus isDigitC, Tok.lit ' ',
   Tok.lit '"', Tok.lazyStar, Tok.lit '"', Tok.lit ' ',
   Tok.lit '"', Tok.lazyStar, Tok.lit '"', Tok.lit ' ',
   Tok.plus isDigitC]

/-- The regex engine's preferred match of `logPattern` at the START of
`l`: captures plus unmatched suffix. -/
def engineMatch (l : List Char) : Option (List String × List Char) :=
  mtoks (matchFuel logPattern l) logPattern l

/-- Anchored `re.fullmatch` of `logPattern` against `l`: the spec's "the
entire line matches the log grammar bit-for-bit". -/
def grammarFullMatch (l : List Char) : Bool :=
  fmatch (matchFuel logPattern l) logPattern l

/-- Scan for the leftmost match, as `re.split` does; returns the first
match's captures.  `re.split` returns
`[prefix, group1, ..., group10, ...]`, so its result has length `≥ 11`
exactly when a match exists somewhere, and entries `1..10` are the first
match's groups. -/
def reSearchAux (F : Nat) : List Char → Option (List String)
  | [] =>
      match mtoks F logPattern [] with
      | some (caps, _) => some caps
      | none => none
  | x :: s' =>
      match mtoks F logPattern (x :: s') with
      | some (caps, _) => some caps
      | none => reSearchAux F s'

/-- Captures `parts[1..10]` of `re.split(pattern, l)` when
`len(parts) ≥ 11`, else `none`. -/
def reFirstMatch (l : List Char) : Option (List String) :=
  reSearchAux (matchFuel logPattern l) l

/-! ## parse_log_line -/

/-- The record built by `parse_log_line`: `ip`, `timestamp`, `request`,
`status`, `user_agent` (dict keys in the source). -/
structure LogRecord where
  ip : String
  timestamp : String
  request : String
  status : Int
  user_agent : String
deriving DecidableEq

/-- Embedding of `parse_log_line(line)`.  Returns the parsed record (or `none`) and the
list of diagnostic messages printed.  Control flow mirrors the source:
strip; reject blank lines; `re.split` and reject when fewer than 11 parts;
extract `parts[1]`, `parts[4]`, `parts[5]`, `int(parts[6])`, `parts[9]`;
reject when the timestamp is `"-"`.  The only operation inside the
`try` block that can raise for a string argument is `int(parts[6])`
(a `ValueError`), in which case the `except` branch prints the
"Skipping malformed line" diagnostic. -/
def parse_log_line (line : String) : Option LogRecord × List String :=
  let l := pyStrip line.toList
  if l.isEmpty then (none, [])
  else
    match reFirstMatch l with
    | none => (none, [])
    | some caps =>
        let ip := caps.getD 0 ""
        let timestamp := caps.getD 3 ""
        let request := caps.getD 4 ""
        match pyInt (caps.getD 5 "") with
        | Except.error e =>
            (none, ["Skipping malformed line: " ++ String.mk (l.take 100) ++
                    "... (Error: " ++ e ++ ")"])
        | Except.ok status =>
            let user_agent := caps.getD 8 ""
            if timestamp = "-" then (none, [])
            else (some ⟨ip, timestamp, request, status, user_agent⟩, [])

/-! ## Aggregation (`analyze_logs`)

Embeddings of the pandas/collections operations the analysis uses:
`Counter` (insertion-ordered counting), `Counter.most_common(10)`
(`heapq.nlargest`, a stable descending selection), `Series.value_counts`
(descending counts, missing values dropped), `str.split()`,
the bot keyword scan, and minute resampling with `idxmax`. -/

/-- Modelled from the spec: the fixed textual layout `DD/MM/YYYY:HH:MM:SS`
of the DATA MODEL section (the code itself never checks this shape at
parse time); used only to compare the spec's timestamp invariant against
the records the code actually produces. -/
def specTimestampLayout (s : String) : Bool :=
  match s.toList with
  | [d1, d2, s1, m1, m2, s2, y1, y2, y3, y4, c1, h1, h2, c2, mi1, mi2, c3, e1, e2] =>
      s1 = '/' && s2 = '/' && c1 = ':' && c2 = ':' && c3 = ':' &&
      ([d1, d2, m1, m2, y1, y2, y3, y4, h1, h2, mi1, mi2, e1, e2].all isDigitC)
  | _ => false

/-- Helper for Python `str.split()`: `acc` is the current token, reversed. -/
def splitWSAux : List Char → List Char → List String
  | [], acc => if acc.isEmpty then [] else [String.mk acc.reverse]
  | c :: cs, acc =>
      if isPySpace c then
        if acc.isEmpty then splitWSAux cs []
        else String.mk acc.reverse :: splitWSAux cs []
      else splitWSAux cs (c :: acc)

/-- Python `str.split()` with no arguments: tokens separated by runs of
whitespace, never empty. -/
def pySplitWS (s : String) : List String := splitWSAux s.toList []

/-- Pandas `logs['request'].str.split().str[0]`: the method column; `none`
is pandas `NaN` (a request with no tokens). -/
def methodOf (r : LogRecord) : Option String := (pySplitWS r.request)[0]?

/-- Pandas `logs['request'].str.split().str[1]`: the path column; `none`
is pandas `NaN` (a request with fewer than two tokens). -/
def pathOf (r : LogRecord) : Option String := (pySplitWS r.request)[1]?

/-- One `Counter`/dict update `self[x] += 1`: first occurrence appends the
key at the end, so key order is first-seen order. -/
def bump [DecidableEq α] : List (α × Nat) → α → List (α × Nat)
  | [], x => [(x, 1)]
  | (y, n) :: rest, x =>
      if y = x then (y, n + 1) :: rest else (y, n) :: bump rest x

/-- Building a `Counter` from a sequence: items in first-seen key order
with their multiplicities. -/
def countFold [DecidableEq α] (l : List α) : List (α × Nat) := l.foldl bump []

/-- Stable descending sort by count.  `Counter.most_common(n)` calls
`heapq.nlargest(n, items, key=itemgetter(1))`, which selects by the
lexicographic key (count, decreasing insertion counter) — i.e. a stable
descending sort by count, ties resolved toward the earlier item.  We
embed it by decorating each item with its position and sorting by the
total order (count descending, position ascending). -/
def mcRel (p q : Nat × (α × Nat)) : Prop :=
  q.2.2 < p.2.2 ∨ (q.2.2 = p.2.2 ∧ p.1 ≤ q.1)

instance : DecidableRel (@mcRel α) := fun p q => by
  unfold mcRel; infer_instance

instance : IsTotal (Nat × (α × Nat)) mcRel where
  total p q := by
    unfold mcRel
    rcases Nat.lt_trichotomy p.2.2 q.2.2 with h | h | h
    · exact Or.inr (Or.inl h)
    · rcases Nat.le_total p.1 q.1 with h' | h'
      · exact Or.inl (Or.inr ⟨h.symm, h'⟩)
      · exact Or.inr (Or.inr ⟨h, h'⟩)
    · exact Or.inl (Or.inl h)

instance : IsTrans (Nat × (α × Nat)) mcRel where
  trans p q r hpq hqr := by
    unfold mcRel at *
    rcases hpq with h1 | ⟨h1, h1'⟩ <;> rcases hqr with h2 | ⟨h2, h2'⟩
    · exact Or.inl (h2.trans h1)
    · exact Or.inl (h2 ▸ h1)
    · exact Or.inl (h1 ▸ h2)
    · exact Or.inr ⟨h1 ▸ h2, h1'.trans h2'⟩

def sortByCountDesc (items : List (α × Nat)) : List (α × Nat) :=
  (items.enum.insertionSort mcRel).map (fun p => p.2)

/-- `Counter.most_common(n)`. -/
def most_common (n : Nat) (items : List (α × Nat)) : List (α × Nat) :=
  (sortByCountDesc items).take n

/-- Pandas `Series.value_counts()`: frequency table in descending count
order.  Missing values (`NaN`) never reach this function: its callers
first drop them (`filterMap`), exactly as `value_counts` does with its
default `dropna=True`. -/
def value_counts [DecidableEq α] (l : List α) : List (α × Nat) :=
  sortByCountDesc (countFold l)

/-- `Counter(logs['ip'])`. -/
def ipCounts (rs : List LogRecord) : List (String × Nat) :=
  countFold (rs.map (fun r => r.ip))

/-- `Counter(logs['ip']).most_common(10)`: the top-10 IP ranking. -/
def topIPs (rs : List LogRecord) : List (String × Nat) :=
  most_common 10 (ipCounts rs)

/-- `logs['method'].value_counts()`: records whose request has no tokens
have method `NaN` and are dropped by `value_counts`. -/
def methodTable (rs : List LogRecord) : List (String × Nat) :=
  value_counts (rs.filterMap methodOf)

/-- `logs['path'].value_counts()` before `head(10)`. -/
def pathCounts (rs : List LogRecord) : List (String × Nat) :=
  value_counts (rs.filterMap pathOf)

/-- `logs['path'].value_counts().head(10)`. -/
def pathTable (rs : List LogRecord) : List (String × Nat) :=
  (pathCounts rs).take 10

/-- `logs['status'].value_counts()`: every record has an integer status. -/
def statusTable (rs : List LogRecord) : List (Int × Nat) :=
  value_counts (rs.map (fun r => r.status))

/-- Total of the counts in a frequency table. -/
def sumCounts (t : List (α × Nat)) : Nat := (t.map (fun p => p.2)).sum

/-- The fixed bot keyword list of the source. -/
def botKeywords : List String :=
  ["bot", "crawl", "spider", "scraper", "monitoring", "python", "curl", "wget"]

/-- Python `str.lower()` (ASCII; the keywords are ASCII). -/
def toLowerStr (s : String) : String := String.mk (s.toList.map Char.toLower)

/-- Substring test, the semantics of `Series.str.contains` with the
alternation regex `'|'.join(bot_keywords)` of plain literals. -/
def containsSub (needle hay : List Char) : Bool :=
  hay.tails.any (fun t => needle.isPrefixOf t)

/-- Bot classification of one record. -/
def isBot (r : LogRecord) : Bool :=
  botKeywords.any (fun k => containsSub k.toList (toLowerStr r.user_agent).toList)

/-- `logs['is_bot'].sum()`. -/
def botCount (rs : List LogRecord) : Nat := (rs.filter isBot).length

/-! ## Time-series analysis -/

/-- Greedily take up to `n` leading digits. -/
def takeDigits : Nat → List Char → (List Char × List Char)
  | 0, cs => ([], cs)
  | _ + 1, [] => ([], [])
  | n + 1, c :: cs =>
      if isDigitC c then
        let p := takeDigits n cs
        (c :: p.1, p.2)
      else ([], c :: cs)

/-- Read a 1..`maxLen` digit number, as `strptime`'s numeric directives do. -/
def readNum (maxLen : Nat) (cs : List Char) : Option (Nat × List Char) :=
  let p := takeDigits maxLen cs
  if p.1.isEmpty then none else some (decNat p.1, p.2)

def expectChar (c : Char) : List Char → Option (List Char)
  | x :: r => if x = c then some r else none
  | [] => none

def isLeap (y : Nat) : Bool := (y % 4 = 0 && y % 100 ≠ 0) || y % 400 = 0

def daysInMonth (y m : Nat) : Nat :=
  if m = 2 then (if isLeap y then 29 else 28)
  else if m = 4 ∨ m = 6 ∨ m = 9 ∨ m = 11 then 30
  else 31

/-- Minute key `(y, month, day, hour, minute)` packed into a `Nat` whose
order agrees with chronological order on calendar-valid fields. -/
def mkey (y mo d h mi : Nat) : Nat :=
  (((y * 13 + mo) * 32 + d) * 24 + h) * 60 + mi

/-- `pd.to_datetime(ts, format='%d/%m/%Y:%H:%M:%S', errors='coerce')` for
one string: parse the fixed day-first layout (1-2 digit day/month/hour/
minute/second, up to 4-digit year), validate the calendar fields, and
return the timestamp as a second count key (`none` is `NaT`). -/
def parseTimestamp (s : String) : Option Nat := do
  let p1 ← readNum 2 s.toList
  let r2 ← expectChar '/' p1.2
  let p2 ← readNum 2 r2
  let r4 ← expectChar '/' p2.2
  let p3 ← readNum 4 r4
  let r6 ← expectChar ':' p3.2
  let p4 ← readNum 2 r6
  let r8 ← expectChar ':' p4.2
  let p5 ← readNum 2 r8
  let r10 ← expectChar ':' p5.2
  let p6 ← readNum 2 r10
  let d := p1.1; let mo := p2.1; let y := p3.1
  let h := p4.1; let mi := p5.1; let sec := p6.1
  if p6.2 = [] ∧ 1 ≤ mo ∧ mo ≤ 12 ∧ 1 ≤ d ∧ d ≤ daysInMonth y mo ∧
     h ≤ 23 ∧ mi ≤ 59 ∧ sec ≤ 59 then
    pure (mkey y mo d h mi * 60 + sec)
  else none

/-- Minute keys of the records with a valid datetime, in record order
(the `dropna(subset=['datetime'])` column, truncated to the minute as
`resample('T')` does). -/
def validMinuteKeys (rs : List LogRecord) : List Nat :=
  (rs.filterMap (fun r => parseTimestamp r.timestamp)).map (fun t => t / 60)

/-- Ascending bucket-start order used by the resampled series. -/
def keyLE (p q : Nat × Nat) : Prop := p.1 ≤ q.1

instance : DecidableRel keyLE := fun p q => by
  unfold keyLE; infer_instance

instance : IsTotal (Nat × Nat) keyLE where
  total p q := Nat.le_total p.1 q.1

instance : IsTrans (Nat × Nat) keyLE where
  trans _ _ _ h h' := Nat.le_trans h h'

/-- Observed one-minute buckets with their counts, in ascending time
order — the nonzero entries of `resample('T').size()`.  (`resample` also
materialises zero-count buckets inside the span; those never influence
the peak, whose count is at least 1, and no claim depends on them.) -/
def minuteBuckets (rs : List LogRecord) : List (Nat × Nat) :=
  (countFold (validMinuteKeys rs)).insertionSort keyLE

/-- `Series.idxmax` paired with `max`: the first entry attaining the
maximal count (an earlier entry is kept unless a strictly larger count
follows). -/
def peak1 : List (Nat × Nat) → Option (Nat × Nat)
  | [] => none
  | p :: ps =>
      match peak1 ps with
      | none => some p
      | some q => if p.2 < q.2 then some q else some p

/-- The busiest minute reported by the time analysis. -/
def peakBucket (rs : List LogRecord) : Option (Nat × Nat) :=
  peak1 (minuteBuckets rs)

/-! ## The run (`analyze_logs`) as an event trace

Console prints and the chart write are modelled as an event list; an
uncaught exception is `Except.error`.  The missing-file branch returns
before any file read and no claim concerns it, so the model starts from
the file's content. -/

inductive Event where
  | analyzing
  | skipDiag (msg : String)
  | report (total valid malformed : Nat)
  | noValidEntries
  | echoLine (idx : Nat) (content : String)
  | traffic (total uniqueIPs : Nat)
  | topIPsOut (t : List (String × Nat))
  | botsOut (count : Nat)
  | methodsOut (t : List (String × Nat))
  | pathsOut (t : List (String × Nat))
  | statusesOut (t : List (Int × Nat))
  | droppedTimestamps (n : Nat)
  | noValidTimestamps
  | chartSaved (path : String)
  | peakOut (minuteKey count : Nat)
deriving DecidableEq

deriving instance DecidableEq for Except

/-- Body of `analyze_logs` after the existence check: `lines` is the
file's decoded content (first `open`, `errors='replace'`) and `reread`
the outcome of the second `open` (strict decoding) used only to echo the
first three lines when no entry parsed.  Echoed lines are printed as
`f"{i+1}: {line.strip()}"`. -/
def analyze_core (lines : List String) (reread : Except String (List String)) :
    Except String (List Event) :=
  let parsed := lines.map parse_log_line
  let diags := (parsed.map (fun p => p.2)).flatten.map Event.skipDiag
  let entries := parsed.filterMap (fun p => p.1)
  let pre := Event.analyzing :: diags ++
    [Event.report lines.length entries.length (lines.length - entries.length)]
  if entries.isEmpty then
    match reread with
    | Except.error e => Except.error e
    | Except.ok ls =>
        Except.ok (pre ++ [Event.noValidEntries] ++
          ((ls.take 3).enum.map
            (fun p => Event.echoLine (p.1 + 1) (String.mk (pyStrip p.2.toList)))))
  else
    let aggEvents :=
      [Event.traffic entries.length (ipCounts entries).length,
       Event.topIPsOut (topIPs entries),
       Event.botsOut (botCount entries),
       Event.methodsOut (methodTable entries),
       Event.pathsOut (pathTable entries),
       Event.statusesOut (statusTable entries)]
    let valid := validMinuteKeys entries
    let dropped := entries.length - valid.length
    let dropEv := if 0 < dropped then [Event.droppedTimestamps dropped] else []
    let timeEv :=
      if valid.isEmpty then [Event.noValidTimestamps]
      else
        Event.chartSaved "requests_per_minute.png" ::
          (match peakBucket entries with
           | some pk => [Event.peakOut pk.1 pk.2]
           | none => [])
    Except.ok (pre ++ aggEvents ++ dropEv ++ timeEv)

/-- `analyze_logs` on an existing, decodable text file given as lines. -/
def analyze_logs (lines : List String) : Except String (List Event) :=
  analyze_core lines (Except.ok lines)

/-! ## Byte-level file reading -/

def contByte (b : Nat) : Bool := 0x80 ≤ b && b ≤ 0xBF

/-- Strict UTF-8 decoding, the semantics of the second
`open(log_file, 'r')` (no `errors` option): `none` is an uncaught
`UnicodeDecodeError`. -/
def utf8DecodeStrict : List Nat → Option (List Char)
  | [] => some []
  | b :: bs =>
      if b ≤ 0x7F then
        match utf8DecodeStrict bs with
        | some r => some (Char.ofNat b :: r)
        | none => none
      else if 0xC2 ≤ b ∧ b ≤ 0xDF then
        match bs with
        | b1 :: bs' =>
            if contByte b1 then
              match utf8DecodeStrict bs' with
              | some r => some (Char.ofNat ((b - 0xC0) * 64 + (b1 - 0x80)) :: r)
              | none => none
            else none
        | [] => none
      else if 0xE0 ≤ b ∧ b ≤ 0xEF then
        match bs with
        | b1 :: b2 :: bs' =>
            if contByte b1 && contByte b2 &&
               (decide (b ≠ 0xE0) || decide (0xA0 ≤ b1)) &&
               (decide (b ≠ 0xED) || decide (b1 ≤ 0x9F)) then
              match utf8DecodeStrict bs' with
              | some r =>
                  some (Char.ofNat ((b - 0xE0) * 4096 + (b1 - 0x80) * 64 + (b2 - 0x80)) :: r)
              | none => none
            else none
        | _ => none
      else if 0xF0 ≤ b ∧ b ≤ 0xF4 then
        match bs with
        | b1 :: b2 :: b3 :: bs' =>
            if contByte b1 && contByte b2 && contByte b3 &&
               (decide (b ≠ 0xF0) || decide (0x90 ≤ b1)) &&
               (decide (b ≠ 0xF4) || decide (b1 ≤ 0x8F)) then
              match utf8DecodeStrict bs' with
              | some r =>
                  some (Char.ofNat ((b - 0xF0) * 262144 + (b1 - 0x80) * 4096 +
                        (b2 - 0x80) * 64 + (b3 - 0x80)) :: r)
              | none => none
            else none
        | _ => none
      else none

/-- UTF-8 decoding with `errors='replace'`, the semantics of the first
`open`: an invalid byte becomes U+FFFD and decoding continues (the exact
number of replacement characters per invalid sequence differs from
CPython's maximal-subpart policy in corner cases; no claim depends on
it, only on this decoder being total). -/
def utf8DecodeReplace : List Nat → List Char
  | [] => []
  | b :: bs =>
      if b ≤ 0x7F then Char.ofNat b :: utf8DecodeReplace bs
      else if 0xC2 ≤ b ∧ b ≤ 0xDF then
        match bs with
        | b1 :: bs' =>
            if contByte b1 then
              Char.ofNat ((b - 0xC0) * 64 + (b1 - 0x80)) :: utf8DecodeReplace bs'
            else '�' :: utf8DecodeReplace (b1 :: bs')
        | [] => ['�']
      else if 0xE0 ≤ b ∧ b ≤ 0xEF then
        match bs with
        | b1 :: b2 :: bs' =>
            if contByte b1 && contByte b2 &&
               (decide (b ≠ 0xE0) || decide (0xA0 ≤ b1)) &&
               (decide (b ≠ 0xED) || decide (b1 ≤ 0x9F)) then
              Char.ofNat ((b - 0xE0) * 4096 + (b1 - 0x80) * 64 + (b2 - 0x80)) ::
                utf8DecodeReplace bs'
            else '�' :: utf8DecodeReplace (b1 :: b2 :: bs')
        | _ => List.replicate bs.length '�' ++ ['�']
      else if 0xF0 ≤ b ∧ b ≤ 0xF4 then
        match bs with
        | b1 :: b2 :: b3 :: bs' =>
            if contByte b1 && contByte b2 && contByte b3 &&
               (decide (b ≠ 0xF0) || decide (0x90 ≤ b1)) &&
               (decide (b ≠ 0xF4) || decide (b1 ≤ 0x8F)) then
              Char.ofNat ((b - 0xF0) * 262144 + (b1 - 0x80) * 4096 +
                (b2 - 0x80) * 64 + (b3 - 0x80)) :: utf8DecodeReplace bs'
            else '�' :: utf8DecodeReplace (b1 :: b2 :: b3 :: bs')
        | _ => List.replicate bs.length '�' ++ ['�']
      else '�' :: utf8DecodeReplace bs

/-- Split decoded text at newlines, as text-mode line iteration does. -/
def splitOnNl : List Char → List (List Char)
  | [] => [[]]
  | c :: cs =>
      if c = '\n' then [] :: splitOnNl cs
      else
        match splitOnNl cs with
        | [] => [[c]]
        | l :: ls => (c :: l) :: ls

/-- Lines of a text file's content: a trailing newline does not start a
final empty line. -/
def splitLines (l : List Char) : List String :=
  let parts := splitOnNl l
  (if parts.getLast? = some [] then parts.dropLast else parts).map String.mk

/-- `analyze_logs` from the file's raw bytes: the first read decodes with
replacement; the echo-path re-read decodes strictly and an invalid byte
there escapes as an uncaught `UnicodeDecodeError`. -/
def analyze_logs_bytes (content : List Nat) : Except String (List Event) :=
  analyze_core (splitLines (utf8DecodeReplace content))
    (match utf8DecodeStrict content with
     | some t => Except.ok (splitLines t)
     | none => Except.error "UnicodeDecodeError")

/-! ## Matcher invariants

Every capture produced for a greedy `(\S+)`/`(\d+)` group is a nonempty
string of characters from the group's class.  This is what makes the
`int(parts[6])` conversion (and hence the `except` branch) infallible. -/

/-- Well-formedness of in-progress repetition states: the accumulator of a
greedy repetition is nonempty and inside the class.  Source patterns
contain no such states, so this holds vacuously at the start. -/
def tokWF : Tok → Prop
  | Tok.plusAcc cls acc => acc ≠ [] ∧ acc.all cls
  | _ => True

/-- Shape of a capture list for a token sequence: one capture per group,
greedy-group captures nonempty and inside their class. -/
def capsOK : List Tok → List String → Prop
  | [], caps => caps = []
  | Tok.lit _ :: ts, caps => capsOK ts caps
  | Tok.plus cls :: ts, caps =>
      match caps with
      | [] => False
      | x :: rest => x.toList ≠ [] ∧ x.toList.all cls ∧ capsOK ts rest
  | Tok.plusAcc cls _ :: ts, caps =>
      match caps with
      | [] => False
      | x :: rest => x.toList ≠ [] ∧ x.toList.all cls ∧ capsOK ts rest
  | Tok.lazyStar :: ts, caps =>
      match caps with
      | [] => False
      | _ :: rest => capsOK ts rest
  | Tok.lazyAcc _ :: ts, caps =>
      match caps with
      | [] => False
      | _ :: rest => capsOK ts rest

theorem mtoks_capsOK :
    ∀ (f : Nat) (ts : List Tok) (s : List Char) (caps : List String)
      (rem : List Char), (∀ t ∈ ts, tokWF t) →
      mtoks f ts s = some (caps, rem) → capsOK ts caps := by
  intro f
  induction f with
  | zero => intro ts s caps rem _ h; simp [mtoks] at h
  | succ f ih =>
    intro ts s caps rem hwf h
    cases ts with
    | nil =>
        simp only [mtoks, Option.some.injEq, Prod.mk.injEq] at h
        simp [capsOK, ← h.1]
    | cons t ts' =>
      have hwf' : ∀ u ∈ ts', tokWF u := fun u hu => hwf u (List.mem_cons_of_mem _ hu)
      cases t with
      | lit c =>
          simp only [mtoks] at h
          cases s with
          | nil => simp at h
          | cons x s' =>
              simp only at h
              split at h
              · exact ih ts' s' caps rem hwf' h
              · simp at h
      | plus cls =>
          simp only [mtoks] at h
          cases s with
          | nil => simp at h
          | cons x s' =>
              simp only at h
              split at h
              next hx =>
                have hwf2 : ∀ u ∈ Tok.plusAcc cls [x] :: ts', tokWF u := by
                  intro u hu
                  rcases List.mem_cons.1 hu with rfl | hu
                  · exact ⟨by simp, by simp [hx]⟩
                  · exact hwf' u hu
                have := ih _ s' caps rem hwf2 h
                simpa [capsOK] using this
              · simp at h
      | plusAcc cls acc =>
          simp only [mtoks] at h
          rcases hA : (match s with
              | x :: s' =>
                  if cls x then mtoks f (Tok.plusAcc cls (x :: acc) :: ts') s'
                  else none
              | [] => none) with _ | r
          · rw [hA] at h
            simp only at h
            rcases hB : mtoks f ts' s with _ | ⟨caps', rem'⟩
            · rw [hB] at h; simp at h
            · rw [hB] at h
              simp only [Option.some.injEq, Prod.mk.injEq] at h
              obtain ⟨hacc1, hacc2⟩ := hwf _ (List.mem_cons_self _ _)
              have hcOK := ih ts' s caps' rem' hwf' hB
              simp only [capsOK, ← h.1]
              refine ⟨by simpa using hacc1, by simpa using hacc2, hcOK⟩
          · rw [hA] at h
            simp only [Option.some.injEq] at h
            subst h
            cases s with
            | nil => simp at hA
            | cons x s' =>
                simp only at hA
                split at hA
                next hx =>
                  obtain ⟨hacc1, hacc2⟩ := hwf _ (List.mem_cons_self _ _)
                  have hwf2 : ∀ u ∈ Tok.plusAcc cls (x :: acc) :: ts', tokWF u := by
                    intro u hu
                    rcases List.mem_cons.1 hu with rfl | hu
                    · exact ⟨List.cons_ne_nil _ _, by simp [hx, hacc2]⟩
                    · exact hwf' u hu
                  have hOK := ih _ s' caps rem hwf2 hA
                  simpa [capsOK] using hOK
                · simp at hA
      | lazyStar =>
          simp only [mtoks] at h
          have hwf2 : ∀ u ∈ Tok.lazyAcc [] :: ts', tokWF u := by
            intro u hu
            rcases List.mem_cons.1 hu with rfl | hu
            · trivial
            · exact hwf' u hu
          have := ih _ s caps rem hwf2 h
          simpa [capsOK] using this
      | lazyAcc acc =>
          simp only [mtoks] at h
          rcases hB : mtoks f ts' s with _ | ⟨caps', rem'⟩
          · rw [hB] at h
            simp only at h
            cases s with
            | nil => simp at h
            | cons x s' =>
                simp only at h
                split at h
                · have hwf2 : ∀ u ∈ Tok.lazyAcc (x :: acc) :: ts', tokWF u := by
                    intro u hu
                    rcases List.mem_cons.1 hu with rfl | hu
                    · trivial
                    · exact hwf' u hu
                  have := ih _ s' caps rem hwf2 h
                  simpa [capsOK] using this
                · simp at h
          · rw [hB] at h
            simp only [Option.some.injEq, Prod.mk.injEq] at h
            have hcOK := ih ts' s caps' rem' hwf' hB
            simp only [capsOK, ← h.1]
            exact hcOK

theorem wf_logPattern : ∀ t ∈ logPattern, tokWF t := by
  intro t ht
  cases t <;> simp_all [logPattern, tokWF]

theorem reSearchAux_some :
    ∀ (F : Nat) (s : List Char) (caps : List String),
      reSearchAux F s = some caps →
      ∃ s' rem, mtoks F logPattern s' = some (caps, rem) := by
  intro F s
  induction s with
  | nil =>
      intro caps h
      simp only [reSearchAux] at h
      rcases hm : mtoks F logPattern [] with _ | ⟨caps', rem⟩
      · rw [hm] at h; simp at h
      · rw [hm] at h
        simp only [Option.some.injEq] at h
        exact ⟨[], rem, by rw [hm, h]⟩
  | cons x s' ih =>
      intro caps h
      simp only [reSearchAux] at h
      rcases hm : mtoks F logPattern (x :: s') with _ | ⟨caps', rem⟩
      · rw [hm] at h
        exact ih caps h
      · rw [hm] at h
        simp only [Option.some.injEq] at h
        exact ⟨x :: s', rem, by rw [hm, h]⟩

/-- Shape of the captures of any match of `logPattern`: ten groups, with
the status group (index 5, i.e. regex group 6) a nonempty digit string.
Groups 7 and 10 are digit strings as well; only group 6 is needed. -/
theorem capsOK_logPattern {caps : List String} (h : capsOK logPattern caps) :
    ∃ g1 g2 g3 g4 g5 g6 g7 g8 g9 g10,
      caps = [g1, g2, g3, g4, g5, g6, g7, g8, g9, g10] ∧
      g6.toList ≠ [] ∧ g6.toList.all isDigitC := by
  simp only [logPattern] at h
  rcases caps with _ | ⟨g1, caps⟩; · exact absurd h (by simp [capsOK])
  simp only [capsOK] at h
  obtain ⟨-, -, h⟩ := h
  rcases caps with _ | ⟨g2, caps⟩; · exact absurd h (by simp [capsOK])
  simp only [capsOK] at h
  obtain ⟨-, -, h⟩ := h
  rcases caps with _ | ⟨g3, caps⟩; · exact absurd h (by simp [capsOK])
  simp only [capsOK] at h
  obtain ⟨-, -, h⟩ := h
  rcases caps with _ | ⟨g4, caps⟩; · exact absurd h (by simp [capsOK])
  simp only [capsOK] at h
  rcases caps with _ | ⟨g5, caps⟩; · exact absurd h (by simp [capsOK])
  simp only [capsOK] at h
  rcases caps with _ | ⟨g6, caps⟩; · exact absurd h (by simp [capsOK])
  simp only [capsOK] at h
  obtain ⟨h6a, h6b, h⟩ := h
  rcases caps with _ | ⟨g7, caps⟩; · exact absurd h (by simp [capsOK])
  simp only [capsOK] at h
  obtain ⟨-, -, h⟩ := h
  rcases caps with _ | ⟨g8, caps⟩; · exact absurd h (by simp [capsOK])
  simp only [capsOK] at h
  rcases caps with _ | ⟨g9, caps⟩; · exact absurd h (by simp [capsOK])
  simp only [capsOK] at h
  rcases caps with _ | ⟨g10, caps⟩; · exact absurd h (by simp [capsOK])
  simp only [capsOK] at h
  obtain ⟨-, -, h⟩ := h
  exact ⟨g1, g2, g3, g4, g5, g6, g7, g8, g9, g10, by rw [h], h6a, h6b⟩

/-! ## Infallibility of the extraction step -/

theorem dropWhile_eq_self_of {p : Char → Bool} :
    ∀ {l : List Char}, (∀ c ∈ l, p c = false) → l.dropWhile p = l
  | [], _ => rfl
  | x :: xs, h => by simp [List.dropWhile, h x (by simp)]

theorem pyStrip_eq_self {l : List Char} (h : ∀ c ∈ l, isPySpace c = false) :
    pyStrip l = l := by
  unfold pyStrip
  rw [dropWhile_eq_self_of h,
      dropWhile_eq_self_of (fun c hc => h c (List.mem_reverse.1 hc)),
      List.reverse_reverse]

theorem digit_not_space {c : Char} (h : isDigitC c = true) :
    isPySpace c = false := by
  cases hc : isPySpace c
  · rfl
  · exfalso
    have hd : c = ' ' ∨ c = '\t' ∨ c = '\n' ∨ c = '\r' ∨ c = '\x0b' ∨ c = '\x0c' := by
      simpa [isPySpace, or_assoc] using hc
    rcases hd with rfl | rfl | rfl | rfl | rfl | rfl <;> exact absurd h (by decide)

/-- On a nonempty all-digit string — which is what the `(\d+)` capture
always is — Python `int` returns the decimal value, without raising. -/
theorem pyInt_digits {s : String} (h1 : s.toList ≠ [])
    (h2 : s.toList.all isDigitC = true) :
    pyInt s = Except.ok ((decNat s.toList : Nat) : Int) := by
  have hall : ∀ c ∈ s.toList, isDigitC c = true := List.all_eq_true.1 h2
  have hstrip : pyStrip s.toList = s.toList :=
    pyStrip_eq_self (fun c hc => digit_not_space (hall c hc))
  unfold pyInt
  rw [hstrip]
  split
  next r heq =>
      exact absurd (hall '+' (by rw [heq]; exact List.mem_cons_self _ _)) (by decide)
  next r heq =>
      exact absurd (hall '-' (by rw [heq]; exact List.mem_cons_self _ _)) (by decide)
  next r hne1 hne2 =>
      rw [if_pos ⟨h1, h2⟩]

/-- Any successful `re.split` of a line yields exactly ten captures, with
the status capture a nonempty digit string. -/
theorem reFirstMatch_shape {l : List Char} {caps : List String}
    (h : reFirstMatch l = some caps) :
    ∃ g1 g2 g3 g4 g5 g6 g7 g8 g9 g10,
      caps = [g1, g2, g3, g4, g5, g6, g7, g8, g9, g10] ∧
      g6.toList ≠ [] ∧ g6.toList.all isDigitC := by
  obtain ⟨s', rem, hm⟩ := reSearchAux_some _ _ _ h
  exact capsOK_logPattern (mtoks_capsOK _ _ _ _ _ wf_logPattern hm)

theorem parse_eq_of_empty {line : String}
    (h : (pyStrip line.toList).isEmpty = true) :
    parse_log_line line = (none, []) := by
  unfold parse_log_line
  rw [if_pos h]

theorem parse_eq_of_nomatch {line : String}
    (h : reFirstMatch (pyStrip line.toList) = none) :
    parse_log_line line = (none, []) := by
  unfold parse_log_line
  by_cases he : (pyStrip line.toList).isEmpty
  · rw [if_pos he]
  · rw [if_neg he, h]

/-- Master description of the accepted branch: when `re.split` finds a
match, the result of `parse_log_line` is determined by the captures, the
diagnostic list is empty (the `int` conversion cannot fail on a `\d+`
capture), and the record is produced exactly when the timestamp capture
differs from `"-"`. -/
theorem parse_eq_of_match {line : String} {caps : List String}
    (h : reFirstMatch (pyStrip line.toList) = some caps) :
    parse_log_line line =
      (if caps.getD 3 "" = "-" then none
       else some ⟨caps.getD 0 "", caps.getD 3 "", caps.getD 4 "",
                  ((decNat (caps.getD 5 "").toList : Nat) : Int),
                  caps.getD 8 ""⟩, []) := by
  have hne : (pyStrip line.toList).isEmpty = false := by
    cases hl : pyStrip line.toList with
    | nil =>
        rw [hl, show reFirstMatch [] = none from by decide] at h
        exact Option.noConfusion h
    | cons x s' => rfl
  obtain ⟨g1, g2, g3, g4, g5, g6, g7, g8, g9, g10, hc, h6a, h6b⟩ :=
    reFirstMatch_shape h
  subst hc
  have e0 : ([g1, g2, g3, g4, g5, g6, g7, g8, g9, g10].getD 0 "") = g1 := rfl
  have e3 : ([g1, g2, g3, g4, g5, g6, g7, g8, g9, g10].getD 3 "") = g4 := rfl
  have e4 : ([g1, g2, g3, g4, g5, g6, g7, g8, g9, g10].getD 4 "") = g5 := rfl
  have e5 : ([g1, g2, g3, g4, g5, g6, g7, g8, g9, g10].getD 5 "") = g6 := rfl
  have e8 : ([g1, g2, g3, g4, g5, g6, g7, g8, g9, g10].getD 8 "") = g9 := rfl
  unfold parse_log_line
  simp only [hne, Bool.false_eq_true, if_false, h, e0, e3, e4, e5, e8,
             pyInt_digits h6a h6b]
  by_cases hts : g4 = "-" <;> simp [hts]

/-! ## Claims about the line parser -/

/-- C1: for every input line that matches the log grammar — the regex
engine's match at the start of the stripped line exists and spans all of
it, with captures `caps` — and whose timestamp capture (group 4) is not
the literal `-`, `parse_log_line` returns a record whose five fields
`ip`, `timestamp`, `request`, `status`, `user_agent` equal capture
groups 1, 4, 5, 6, 9 (indices 0, 3, 4, 5, 8 of `caps`), with the status
group converted to its integer value. -/
theorem C1_parse_extracts_match_groups (line : String) (caps : List String)
    (h : engineMatch (pyStrip line.toList) = some (caps, []))
    (hts : caps.getD 3 "" ≠ "-") :
    (parse_log_line line).1 =
      some ⟨caps.getD 0 "", caps.getD 3 "", caps.getD 4 "",
            ((decNat (caps.getD 5 "").toList : Nat) : Int), caps.getD 8 ""⟩ := by
  have hr : reFirstMatch (pyStrip line.toList) = some caps := by
    cases hl : pyStrip line.toList with
    | nil =>
        rw [hl, show engineMatch [] = none from by decide] at h
        exact Option.noConfusion h
    | cons x s' =>
        rw [hl] at h
        unfold engineMatch at h
        simp only [reFirstMatch, reSearchAux, hl, h]
  rw [parse_eq_of_match hr]
  dsimp only
  rw [if_neg hts]

/-- C1 witness: the theorem applied to a concrete well-formed line. -/
theorem C1_witness :
    (parse_log_line "1.2.3.4 - frank [01/07/2025:06:00:02] \"GET /api/episodes HTTP/1.1\" 200 1234 \"-\" \"Mozilla/5.0\" 55").1 =
      some ⟨"1.2.3.4", "01/07/2025:06:00:02", "GET /api/episodes HTTP/1.1", 200,
            "Mozilla/5.0"⟩ :=
  C1_parse_extracts_match_groups _
    ["1.2.3.4", "-", "frank", "01/07/2025:06:00:02", "GET /api/episodes HTTP/1.1",
     "200", "1234", "-", "Mozilla/5.0", "55"]
    (by decide) (by decide)

/-- C2 counterexample: a line in which the grammar pattern occurs only as
a proper substring (here, with the extra text `junk ` in front) is NOT
rejected: `re.split` matches the pattern anywhere in the line, so a
record is produced, refuting "accepts a line only if the entire line
matches the log grammar bit-for-bit". -/
theorem C2_counterexample :
    grammarFullMatch (pyStrip ("junk 1.2.3.4 - - [01/07/2025:06:00:02] \"GET /api HTTP/1.1\" 200 123 \"-\" \"UA\" 5").toList) = false ∧
    (parse_log_line "junk 1.2.3.4 - - [01/07/2025:06:00:02] \"GET /api HTTP/1.1\" 200 123 \"-\" \"UA\" 5").1 =
      some ⟨"1.2.3.4", "01/07/2025:06:00:02", "GET /api HTTP/1.1", 200, "UA"⟩ :=
  ⟨by decide, by decide⟩

/-- C2 amended: `parse_log_line` produces a record iff the grammar
pattern matches SOMEWHERE in the stripped line (the leftmost such match
supplying the fields) and that match's timestamp capture is not `-`;
extra text before or after the matched region is tolerated, not
rejected. -/
theorem C2_accepts_iff_leftmost_match (line : String) :
    (parse_log_line line).1.isSome = true ↔
      ∃ caps, reFirstMatch (pyStrip line.toList) = some caps ∧
        caps.getD 3 "" ≠ "-" := by
  constructor
  · intro h
    cases hm : reFirstMatch (pyStrip line.toList) with
    | none => rw [parse_eq_of_nomatch hm] at h; simp at h
    | some caps =>
        refine ⟨caps, rfl, fun hts => ?_⟩
        rw [parse_eq_of_match hm] at h
        dsimp only at h
        rw [if_pos hts] at h
        simp at h
  · rintro ⟨caps, hm, hts⟩
    rw [parse_eq_of_match hm]
    dsimp only
    rw [if_neg hts]
    rfl

/-- C2 witness: the amended theorem applied to a concrete line with
leading junk. -/
theorem C2_witness :
    (parse_log_line "junk2 1.2.3.5 - - [02/07/2025:07:00:02] \"GET /x HTTP/1.1\" 404 9 \"-\" \"Agent\" 7").1.isSome = true :=
  (C2_accepts_iff_leftmost_match _).mpr
    ⟨["1.2.3.5", "-", "-", "02/07/2025:07:00:02", "GET /x HTTP/1.1", "404", "9",
      "-", "Agent", "7"], by decide, by decide⟩

/-- C3 counterexample: a nonblank line that does not match the grammar
bit-for-bit (extra text after the pattern) for which `parse_log_line`
does NOT return a rejection — it produces a record — refuting the
claim's clause that every line not matching the grammar is rejected
(silently or otherwise). -/
theorem C3_counterexample :
    grammarFullMatch (pyStrip ("1.2.3.4 - - [01/07/2025:06:00:02] \"GET / HTTP/1.1\" 200 123 \"-\" \"UA\" 5 trailing").toList) = false ∧
    (pyStrip ("1.2.3.4 - - [01/07/2025:06:00:02] \"GET / HTTP/1.1\" 200 123 \"-\" \"UA\" 5 trailing").toList).isEmpty = false ∧
    (parse_log_line "1.2.3.4 - - [01/07/2025:06:00:02] \"GET / HTTP/1.1\" 200 123 \"-\" \"UA\" 5 trailing").1.isSome = true :=
  ⟨by decide, by decide, by decide⟩

/-- C3 amended: `parse_log_line` never prints a diagnostic (the
extraction-error branch exists but is unreachable, because the status
group matches only digits and so the integer conversion never fails);
every blank line, every line in which the grammar pattern matches
nowhere, and every line whose leftmost pattern match has timestamp
capture `-` is rejected silently.  (Lines where the pattern matches only
a proper substring yield a record, not a rejection — see the
counterexample.) -/
theorem C3_silent_rejections (line : String) :
    (parse_log_line line).2 = [] ∧
    ((pyStrip line.toList = [] ∨ reFirstMatch (pyStrip line.toList) = none ∨
        (∃ caps, reFirstMatch (pyStrip line.toList) = some caps ∧
          caps.getD 3 "" = "-")) →
      parse_log_line line = (none, [])) := by
  constructor
  · cases hm : reFirstMatch (pyStrip line.toList) with
    | none => rw [parse_eq_of_nomatch hm]
    | some caps => rw [parse_eq_of_match hm]
  · rintro (he | hm | ⟨caps, hm, hts⟩)
    · exact parse_eq_of_empty (by rw [he]; rfl)
    · exact parse_eq_of_nomatch hm
    · rw [parse_eq_of_match hm, if_pos hts]

/-- C3 witness: the theorem applied to a concrete non-matching line. -/
theorem C3_witness :
    (parse_log_line "no match here").2 = [] ∧
    parse_log_line "no match here" = (none, []) :=
  ⟨(C3_silent_rejections "no match here").1,
   (C3_silent_rejections "no match here").2 (Or.inr (Or.inl (by decide)))⟩

/-- C9 counterexample: the timestamp field of a record is NOT always in
the `DD/MM/YYYY:HH:MM:SS` layout — the regex captures arbitrary bracket
contents, and `parse_log_line` stores them unchecked (invalid layouts are
only dropped much later by the time analysis). -/
theorem C9_counterexample :
    (parse_log_line "1.2.3.4 - - [hello] \"GET / HTTP/1.1\" 200 123 \"-\" \"UA\" 5").1 =
      some ⟨"1.2.3.4", "hello", "GET / HTTP/1.1", 200, "UA"⟩ ∧
    specTimestampLayout "hello" = false :=
  ⟨by decide, by decide⟩

/-- C9 amended: for every record constructed by `parse_log_line`, the
timestamp field is never the literal placeholder `-` (such lines are
rejected); it is the raw bracket-delimited capture and is NOT guaranteed
to be in the `DD/MM/YYYY:HH:MM:SS` layout. -/
theorem C9_timestamp_never_dash (line : String) (r : LogRecord)
    (h : (parse_log_line line).1 = some r) : r.timestamp ≠ "-" := by
  cases hm : reFirstMatch (pyStrip line.toList) with
  | none =>
      rw [parse_eq_of_nomatch hm] at h
      exact Option.noConfusion h
  | some caps =>
      rw [parse_eq_of_match hm] at h
      dsimp only at h
      split at h
      · exact Option.noConfusion h
      next hts =>
        have hr := Option.some.inj h
        subst hr
        exact hts

/-- C9 witness: the amended theorem applied to a concrete record. -/
theorem C9_witness :
    (⟨"1.2.3.4", "hello", "GET / HTTP/1.1", 200, "UA"⟩ : LogRecord).timestamp ≠ "-" :=
  C9_timestamp_never_dash
    "1.2.3.4 - - [hello] \"GET / HTTP/1.1\" 200 123 \"-\" \"UA\" 5" _ (by decide)

/-- C10: every record returned by `parse_log_line` has a nonnegative
integer status: the status capture group admits only decimal digits, so
the conversion always succeeds and yields a value `≥ 0`. -/
theorem C10_status_nonneg (line : String) (r : LogRecord)
    (h : (parse_log_line line).1 = some r) : 0 ≤ r.status := by
  cases hm : reFirstMatch (pyStrip line.toList) with
  | none =>
      rw [parse_eq_of_nomatch hm] at h
      exact Option.noConfusion h
  | some caps =>
      rw [parse_eq_of_match hm] at h
      dsimp only at h
      split at h
      · exact Option.noConfusion h
      · have hr := Option.some.inj h
        subst hr
        exact Int.natCast_nonneg _

/-- C10 witness: the theorem applied to a concrete record. -/
theorem C10_witness :
    (0 : Int) ≤ (⟨"5.6.7.8", "03/07/2025:08:00:00", "POST /api HTTP/1.1", 201,
                  "curl/8.0"⟩ : LogRecord).status :=
  C10_status_nonneg
    "5.6.7.8 - - [03/07/2025:08:00:00] \"POST /api HTTP/1.1\" 201 77 \"-\" \"curl/8.0\" 9"
    _ (by decide)

/-! ## Claims about the frequency tables -/

theorem length_filterMap_eq (f : α → Option β) :
    ∀ l : List α,
      (l.filterMap f).length = (l.filter (fun x => (f x).isSome)).length := by
  intro l
  induction l with
  | nil => rfl
  | cons x l ih =>
      cases hf : f x with
      | none => simp [List.filterMap_cons, List.filter_cons, hf, ih]
      | some b => simp [List.filterMap_cons, List.filter_cons, hf, ih]

theorem bump_sum [DecidableEq α] (acc : List (α × Nat)) (x : α) :
    sumCounts (bump acc x) = sumCounts acc + 1 := by
  induction acc with
  | nil => rfl
  | cons p rest ih =>
      obtain ⟨y, n⟩ := p
      by_cases hyx : y = x
      · simp only [bump, if_pos hyx, sumCounts, List.map_cons, List.sum_cons]
        omega
      · simp only [bump, if_neg hyx, sumCounts, List.map_cons, List.sum_cons] at ih ⊢
        omega

theorem countFold_sum_aux [DecidableEq α] :
    ∀ (l : List α) (acc), sumCounts (l.foldl bump acc) = sumCounts acc + l.length := by
  intro l
  induction l with
  | nil => intro acc; simp
  | cons x l ih =>
      intro acc
      simp only [List.foldl_cons, List.length_cons]
      rw [ih (bump acc x), bump_sum]
      omega

theorem countFold_sum [DecidableEq α] (l : List α) :
    sumCounts (countFold l) = l.length := by
  have h := countFold_sum_aux l []
  simpa [countFold, sumCounts] using h

theorem sortByCountDesc_perm (items : List (α × Nat)) :
    (sortByCountDesc items).Perm items := by
  unfold sortByCountDesc
  have h2 := (List.perm_insertionSort (@mcRel α) items.enum).map (fun p => p.2)
  simpa [List.enum_map_snd] using h2

theorem sumCounts_of_perm {t t' : List (α × Nat)} (h : t.Perm t') :
    sumCounts t = sumCounts t' := by
  unfold sumCounts
  exact (h.map (fun p => p.2)).sum_eq

theorem value_counts_sum [DecidableEq α] (l : List α) :
    sumCounts (value_counts l) = l.length := by
  rw [value_counts, sumCounts_of_perm (sortByCountDesc_perm _), countFold_sum]

/-- C4 counterexample: a record whose request is the empty string (which
`parse_log_line` does produce, from an empty quoted request) has no
method and no path tokens; the method and path tables built with
`value_counts` DROP it (`NaN` is excluded) instead of counting it as its
own absent category, so its table is empty rather than having a count of
1 for an absent category. -/
theorem C4_counterexample :
    (parse_log_line "1.2.3.4 - - [01/07/2025:06:00:02] \"\" 200 5 \"-\" \"UA\" 7").1 =
      some ⟨"1.2.3.4", "01/07/2025:06:00:02", "", 200, "UA"⟩ ∧
    methodTable [⟨"1.2.3.4", "01/07/2025:06:00:02", "", 200, "UA"⟩] = [] ∧
    pathTable [⟨"1.2.3.4", "01/07/2025:06:00:02", "", 200, "UA"⟩] = [] ∧
    sumCounts (methodTable [⟨"1.2.3.4", "01/07/2025:06:00:02", "", 200, "UA"⟩]) = 0 :=
  ⟨by decide, by decide, by decide, by decide⟩

/-- C4 amended: the status-code table counts every record; the method and
path tables count exactly the records whose request has a first
(respectively second) whitespace token — records with an absent method
or path are dropped from the respective table (pandas `value_counts`
excludes missing values), not counted as their own category. -/
theorem C4_tables_totals (rs : List LogRecord) :
    sumCounts (statusTable rs) = rs.length ∧
    sumCounts (methodTable rs) =
      (rs.filter (fun r => (methodOf r).isSome)).length ∧
    sumCounts (pathCounts rs) =
      (rs.filter (fun r => (pathOf r).isSome)).length := by
  refine ⟨?_, ?_, ?_⟩
  · rw [statusTable, value_counts_sum, List.length_map]
  · rw [methodTable, value_counts_sum, length_filterMap_eq]
  · rw [pathCounts, value_counts_sum, length_filterMap_eq]

/-! ## Claims about the top-10 IP ranking -/

theorem bump_keys_of_mem [DecidableEq α] (acc : List (α × Nat)) (x : α)
    (hx : x ∈ acc.map Prod.fst) :
    (bump acc x).map Prod.fst = acc.map Prod.fst := by
  induction acc with
  | nil => simp at hx
  | cons p rest ih =>
      obtain ⟨y, n⟩ := p
      by_cases hyx : y = x
      · simp [bump, hyx]
      · simp only [List.map_cons, List.mem_cons] at hx
        rcases hx with h | h
        · exact absurd h.symm hyx
        · simp [bump, hyx, ih h]

theorem bump_keys_of_not_mem [DecidableEq α] (acc : List (α × Nat)) (x : α)
    (hx : x ∉ acc.map Prod.fst) :
    (bump acc x).map Prod.fst = acc.map Prod.fst ++ [x] := by
  induction acc with
  | nil => simp [bump]
  | cons p rest ih =>
      obtain ⟨y, n⟩ := p
      have hyx : y ≠ x := by
        intro h
        exact hx (by simp [h])
      have hx' : x ∉ rest.map Prod.fst := fun h => hx (by simp [h])
      simp [bump, hyx, ih hx']

theorem bump_count [DecidableEq α] (acc : List (α × Nat)) (x : α) (cnt : α → Nat)
    (hnd : (acc.map Prod.fst).Nodup)
    (h1 : ∀ p ∈ acc, p.2 = cnt p.1)
    (h2 : x ∉ acc.map Prod.fst → cnt x = 0) :
    ∀ p ∈ bump acc x, p.2 = cnt p.1 + (if p.1 = x then 1 else 0) := by
  induction acc with
  | nil =>
      intro p hp
      simp only [bump, List.mem_singleton] at hp
      subst hp
      simp [h2 (by simp)]
  | cons q rest ih =>
      obtain ⟨y, n⟩ := q
      simp only [List.map_cons, List.nodup_cons] at hnd
      intro p hp
      by_cases hyx : y = x
      · subst hyx
        simp only [bump, if_pos rfl, List.mem_cons] at hp
        cases hp with
        | head =>
          have hn := h1 (y, n) (by simp)
          simp only at hn ⊢
          simp [hn]
        | tail b hp =>
          have hpkey : p.1 ∈ rest.map Prod.fst := List.mem_map_of_mem _ hp
          have hne : p.1 ≠ y := fun h => hnd.1 (h ▸ hpkey)
          have hcp := h1 p (List.mem_cons_of_mem _ hp)
          simp [hcp, hne]
      · simp only [bump, if_neg hyx, List.mem_cons] at hp
        rcases hp with rfl | hp
        · have hn := h1 (y, n) (by simp)
          simp only at hn ⊢
          simp [hn, hyx]
        · refine ih hnd.2 (fun r hr => h1 r (List.mem_cons_of_mem _ hr)) ?_ p hp
          intro hxr
          exact h2 (by simp [hxr, Ne.symm hyx])

theorem countFold_loop [DecidableEq α] :
    ∀ (l : List α) (acc : List (α × Nat)) (processed : List α),
      (acc.map Prod.fst).Nodup →
      (∀ p ∈ acc, p.2 = processed.count p.1) →
      (∀ a ∈ acc.map Prod.fst, a ∈ processed) →
      (∀ a ∈ processed, a ∈ acc.map Prod.fst) →
      (acc.map Prod.fst).Pairwise
        (fun a b => processed.indexOf a < processed.indexOf b) →
      ((l.foldl bump acc).map Prod.fst).Nodup ∧
      (∀ p ∈ l.foldl bump acc, p.2 = (processed ++ l).count p.1) ∧
      (∀ a ∈ (l.foldl bump acc).map Prod.fst, a ∈ processed ++ l) ∧
      ((l.foldl bump acc).map Prod.fst).Pairwise
        (fun a b => (processed ++ l).indexOf a < (processed ++ l).indexOf b) := by
  intro l
  induction l with
  | nil =>
      intro acc processed hnd h1 h2 h3 h4
      simp only [List.foldl_nil, List.append_nil]
      exact ⟨hnd, h1, h2, h4⟩
  | cons x l ih =>
      intro acc processed hnd h1 h2 h3 h4
      have hcount : ∀ p ∈ bump acc x, p.2 = (processed ++ [x]).count p.1 := by
        intro p hp
        have hc := bump_count acc x (fun a => processed.count a) hnd h1
          (fun hxx => List.count_eq_zero.2 (fun hmem => hxx (h3 x hmem))) p hp
        rw [hc, List.count_append, List.count_singleton']
        by_cases hpx : p.1 = x
        · simp [hpx]
        · simp [hpx, Ne.symm hpx]
      by_cases hx : x ∈ acc.map Prod.fst
      · have hkeys := bump_keys_of_mem acc x hx
        have hnd' : ((bump acc x).map Prod.fst).Nodup := by rw [hkeys]; exact hnd
        have h2' : ∀ a ∈ (bump acc x).map Prod.fst, a ∈ processed ++ [x] := by
          intro a ha
          rw [hkeys] at ha
          exact List.mem_append_left _ (h2 a ha)
        have h3' : ∀ a ∈ processed ++ [x], a ∈ (bump acc x).map Prod.fst := by
          intro a ha
          rw [hkeys]
          rcases List.mem_append.1 ha with h | h
          · exact h3 a h
          · simp only [List.mem_singleton] at h
            exact h ▸ hx
        have h4' : ((bump acc x).map Prod.fst).Pairwise
            (fun a b => (processed ++ [x]).indexOf a < (processed ++ [x]).indexOf b) := by
          rw [hkeys]
          refine h4.imp_of_mem ?_
          intro a b ha hb hab
          rw [List.indexOf_append_of_mem (h2 a ha),
              List.indexOf_append_of_mem (h2 b hb)]
          exact hab
        have hres := ih (bump acc x) (processed ++ [x]) hnd' hcount h2' h3' h4'
        simp only [List.append_assoc, List.singleton_append] at hres
        simp only [List.foldl_cons]
        exact hres
      · have hkeys := bump_keys_of_not_mem acc x hx
        have hxnp : x ∉ processed := fun h => hx (h3 x h)
        have hnd' : ((bump acc x).map Prod.fst).Nodup := by
          rw [hkeys, List.nodup_append]
          exact ⟨hnd, List.nodup_singleton x,
            fun a ha hax => hx ((List.mem_singleton.1 hax) ▸ ha)⟩
        have h2' : ∀ a ∈ (bump acc x).map Prod.fst, a ∈ processed ++ [x] := by
          intro a ha
          rw [hkeys] at ha
          rcases List.mem_append.1 ha with h | h
          · exact List.mem_append_left _ (h2 a h)
          · exact List.mem_append_right _ h
        have h3' : ∀ a ∈ processed ++ [x], a ∈ (bump acc x).map Prod.fst := by
          intro a ha
          rw [hkeys]
          rcases List.mem_append.1 ha with h | h
          · exact List.mem_append_left _ (h3 a h)
          · exact List.mem_append_right _ h
        have h4' : ((bump acc x).map Prod.fst).Pairwise
            (fun a b => (processed ++ [x]).indexOf a < (processed ++ [x]).indexOf b) := by
          rw [hkeys, List.pairwise_append]
          refine ⟨?_, List.pairwise_singleton _ _, ?_⟩
          · refine h4.imp_of_mem ?_
            intro a b ha hb hab
            rw [List.indexOf_append_of_mem (h2 a ha),
                List.indexOf_append_of_mem (h2 b hb)]
            exact hab
          · intro a ha b hb
            rw [List.mem_singleton] at hb
            subst hb
            rw [List.indexOf_append_of_mem (h2 a ha),
                List.indexOf_append_of_not_mem hxnp, List.indexOf_cons_self]
            have := List.indexOf_lt_length.2 (h2 a ha)
            omega
        have hres := ih (bump acc x) (processed ++ [x]) hnd' hcount h2' h3' h4'
        simp only [List.append_assoc, List.singleton_append] at hres
        simp only [List.foldl_cons]
        exact hres

theorem countFold_spec [DecidableEq α] (l : List α) :
    ((countFold l).map Prod.fst).Nodup ∧
    (∀ p ∈ countFold l, p.2 = l.count p.1) ∧
    (∀ a ∈ (countFold l).map Prod.fst, a ∈ l) ∧
    ((countFold l).map Prod.fst).Pairwise
      (fun a b => l.indexOf a < l.indexOf b) := by
  have hres := countFold_loop l [] [] (by simp) (by simp) (by simp) (by simp)
    (by simp)
  simpa [countFold] using hres

theorem enum_nodup (l : List (α × Nat)) : l.enum.Nodup := by
  apply List.Nodup.of_map Prod.fst
  rw [List.enum_map_fst]
  exact List.nodup_range _

/-- Descending order, stability toward earlier first occurrence, and
count correctness, for the stable descending sort of a `Counter` built
from the sequence `l`. -/
theorem sortByCountDesc_countFold_spec [DecidableEq α] (l : List α) :
    (sortByCountDesc (countFold l)).Pairwise (fun p q => q.2 ≤ p.2) ∧
    (sortByCountDesc (countFold l)).Pairwise
      (fun p q => p.2 = q.2 → l.indexOf p.1 < l.indexOf q.1) ∧
    (∀ p ∈ sortByCountDesc (countFold l), p.2 = l.count p.1) := by
  obtain ⟨hnd, hcnt, hsub, hfs⟩ := countFold_spec l
  have hsorted : ((countFold l).enum.insertionSort mcRel).Pairwise mcRel :=
    List.sorted_insertionSort mcRel _
  have hperm := List.perm_insertionSort mcRel (countFold l).enum
  have hSnodup : ((countFold l).enum.insertionSort mcRel).Nodup :=
    hperm.nodup_iff.2 (enum_nodup _)
  have hmem : ∀ x ∈ (countFold l).enum.insertionSort mcRel,
      (countFold l)[x.1]? = some x.2 :=
    fun x hx => List.mem_enum_iff_getElem?.1 (hperm.mem_iff.1 hx)
  refine ⟨?_, ?_, ?_⟩
  · unfold sortByCountDesc
    refine List.pairwise_map.2 (hsorted.imp ?_)
    intro p q hrel
    rcases hrel with h | ⟨h, -⟩
    · exact Nat.le_of_lt h
    · exact Nat.le_of_eq h
  · unfold sortByCountDesc
    refine List.pairwise_map.2 ((hsorted.and hSnodup).imp_of_mem ?_)
    intro x y hxm hym hrel
    obtain ⟨hrel, hne⟩ := hrel
    intro hcnt_eq
    have hget_x := hmem x hxm
    have hget_y := hmem y hym
    have hij : x.1 ≤ y.1 := by
      rcases hrel with h | ⟨-, h'⟩
      · rw [hcnt_eq] at h
        exact absurd h (lt_irrefl _)
      · exact h'
    have hij' : x.1 < y.1 := by
      rcases Nat.lt_or_ge x.1 y.1 with h | h
      · exact h
      · have heq : x.1 = y.1 := Nat.le_antisymm hij h
        rw [heq, hget_y] at hget_x
        exact absurd (Prod.ext heq (Option.some.inj hget_x).symm) hne
    obtain ⟨hxlt, hxeq⟩ := List.getElem?_eq_some_iff.1 hget_x
    obtain ⟨hylt, hyeq⟩ := List.getElem?_eq_some_iff.1 hget_y
    have hpw := List.pairwise_iff_get.1 hfs
      ⟨x.1, by simpa using hxlt⟩ ⟨y.1, by simpa using hylt⟩ hij'
    have hgx : ((countFold l).map Prod.fst).get ⟨x.1, by simpa using hxlt⟩ =
        x.2.1 := by
      simp [List.get_eq_getElem, hxeq]
    have hgy : ((countFold l).map Prod.fst).get ⟨y.1, by simpa using hylt⟩ =
        y.2.1 := by
      simp [List.get_eq_getElem, hyeq]
    rw [hgx, hgy] at hpw
    exact hpw
  · unfold sortByCountDesc
    intro p hp
    obtain ⟨x, hxm, hxeq⟩ := List.mem_map.1 hp
    obtain ⟨hxlt, hgeq⟩ := List.getElem?_eq_some_iff.1 (hmem x hxm)
    subst hxeq
    exact hcnt x.2 (hgeq ▸ List.getElem_mem hxlt)

/-- C5: the top-10 IP ranking is ordered by descending request count; for
every pair of entries with equal counts, the IP whose first occurrence in
the input is earlier ranks above the other; each listed count is that
IP's request count; and on the example with counts {A:5, B:5, C:3} where
A appears before B in the file, the ranking is A first, B second, C
third. -/
theorem C5_top_ips_ranking (rs : List LogRecord) :
    (topIPs rs).Pairwise (fun p q => q.2 ≤ p.2) ∧
    (topIPs rs).Pairwise (fun p q => p.2 = q.2 →
      (rs.map (fun r => r.ip)).indexOf p.1 <
        (rs.map (fun r => r.ip)).indexOf q.1) ∧
    (∀ p ∈ topIPs rs, p.2 = (rs.map (fun r => r.ip)).count p.1) ∧
    topIPs
      [⟨"A", "t", "GET / HTTP/1.1", 200, "u"⟩, ⟨"B", "t", "GET / HTTP/1.1", 200, "u"⟩,
       ⟨"A", "t", "GET / HTTP/1.1", 200, "u"⟩, ⟨"B", "t", "GET / HTTP/1.1", 200, "u"⟩,
       ⟨"C", "t", "GET / HTTP/1.1", 200, "u"⟩, ⟨"A", "t", "GET / HTTP/1.1", 200, "u"⟩,
       ⟨"B", "t", "GET / HTTP/1.1", 200, "u"⟩, ⟨"A", "t", "GET / HTTP/1.1", 200, "u"⟩,
       ⟨"B", "t", "GET / HTTP/1.1", 200, "u"⟩, ⟨"C", "t", "GET / HTTP/1.1", 200, "u"⟩,
       ⟨"A", "t", "GET / HTTP/1.1", 200, "u"⟩, ⟨"B", "t", "GET / HTTP/1.1", 200, "u"⟩,
       ⟨"C", "t", "GET / HTTP/1.1", 200, "u"⟩] =
      [("A", 5), ("B", 5), ("C", 3)] := by
  obtain ⟨hdesc, hstab, hcnt⟩ :=
    sortByCountDesc_countFold_spec (rs.map (fun r => r.ip))
  refine ⟨?_, ?_, ?_, by decide⟩
  · exact List.Pairwise.sublist (List.take_sublist _ _) hdesc
  · exact List.Pairwise.sublist (List.take_sublist _ _) hstab
  · intro p hp
    exact hcnt p ((List.take_sublist _ _).subset hp)

/-! ## Claims about the time-series analysis -/

theorem peak1_ne_none (b : Nat × Nat) (bs : List (Nat × Nat)) :
    peak1 (b :: bs) ≠ none := by
  rw [peak1]
  cases hq : peak1 bs
  · simp
  · dsimp only
    split <;> simp

theorem peak1_max :
    ∀ (bs : List (Nat × Nat)) (pk : Nat × Nat), peak1 bs = some pk →
      pk ∈ bs ∧ ∀ b ∈ bs, b.2 ≤ pk.2 := by
  intro bs
  induction bs with
  | nil => intro pk hpk; simp [peak1] at hpk
  | cons p ps ih =>
      intro pk hpk
      rw [peak1] at hpk
      cases hq : peak1 ps with
      | none =>
          rw [hq] at hpk
          simp only [Option.some.injEq] at hpk
          subst hpk
          have hps : ps = [] := by
            cases ps with
            | nil => rfl
            | cons c cs => exact absurd hq (peak1_ne_none c cs)
          subst hps
          exact ⟨List.mem_singleton_self _, by simp⟩
      | some q =>
          rw [hq] at hpk
          dsimp only at hpk
          obtain ⟨hqmem, hqmax⟩ := ih q hq
          by_cases hlt : p.2 < q.2
          · rw [if_pos hlt] at hpk
            obtain rfl := Option.some.inj hpk
            refine ⟨List.mem_cons_of_mem _ hqmem, ?_⟩
            intro b hb
            rcases List.mem_cons.1 hb with rfl | hb
            · exact Nat.le_of_lt hlt
            · exact hqmax b hb
          · rw [if_neg hlt] at hpk
            obtain rfl := Option.some.inj hpk
            refine ⟨List.mem_cons_self _ _, ?_⟩
            intro b hb
            rcases List.mem_cons.1 hb with rfl | hb
            · exact Nat.le_refl _
            · exact Nat.le_trans (hqmax b hb) (Nat.le_of_not_lt hlt)

theorem peak1_earliest :
    ∀ (bs : List (Nat × Nat)), bs.Pairwise (fun p q => p.1 < q.1) →
      ∀ (pk : Nat × Nat), peak1 bs = some pk →
        ∀ b ∈ bs, b.2 = pk.2 → pk.1 ≤ b.1 := by
  intro bs
  induction bs with
  | nil => intro _ pk hpk; simp [peak1] at hpk
  | cons p ps ih =>
      intro hpw pk hpk b hb hcnt
      rw [peak1] at hpk
      have hpw' := List.pairwise_cons.1 hpw
      cases hq : peak1 ps with
      | none =>
          rw [hq] at hpk
          simp only [Option.some.injEq] at hpk
          subst hpk
          rcases List.mem_cons.1 hb with rfl | hb
          · exact Nat.le_refl _
          · cases ps with
            | nil => simp at hb
            | cons c cs => exact absurd hq (peak1_ne_none c cs)
      | some q =>
          rw [hq] at hpk
          dsimp only at hpk
          by_cases hlt : p.2 < q.2
          · rw [if_pos hlt] at hpk
            obtain rfl := Option.some.inj hpk
            rcases List.mem_cons.1 hb with rfl | hb
            · rw [hcnt] at hlt
              exact absurd hlt (lt_irrefl _)
            · exact ih hpw'.2 q hq b hb hcnt
          · rw [if_neg hlt] at hpk
            obtain rfl := Option.some.inj hpk
            rcases List.mem_cons.1 hb with rfl | hb
            · exact Nat.le_refl _
            · exact Nat.le_of_lt (hpw'.1 b hb)

theorem minuteBuckets_sorted (rs : List LogRecord) :
    (minuteBuckets rs).Pairwise (fun p q => p.1 < q.1) := by
  have hle : (minuteBuckets rs).Pairwise keyLE :=
    List.sorted_insertionSort keyLE _
  have hperm := List.perm_insertionSort keyLE (countFold (validMinuteKeys rs))
  have hnodup : ((minuteBuckets rs).map Prod.fst).Nodup := by
    have h := (countFold_spec (validMinuteKeys rs)).1
    exact ((hperm.map Prod.fst).nodup_iff).2 h
  have hne : (minuteBuckets rs).Pairwise (fun p q => p.1 ≠ q.1) :=
    List.pairwise_map.1 hnodup
  refine (hle.and hne).imp ?_
  intro p q hpq
  exact Nat.lt_of_le_of_ne hpq.1 hpq.2

theorem minuteBuckets_counts (rs : List LogRecord) :
    ∀ b ∈ minuteBuckets rs, b.2 = (validMinuteKeys rs).count b.1 := by
  intro b hb
  have hperm := List.perm_insertionSort keyLE (countFold (validMinuteKeys rs))
  exact (countFold_spec (validMinuteKeys rs)).2.1 b (hperm.mem_iff.1 hb)

/-- C6: records with a valid datetime are grouped into one-minute buckets
keyed by the timestamp truncated to the minute, in ascending time order,
each bucket counting its records; the reported peak is the bucket with
the maximum count, ties broken by earliest bucket start; and on the
example timestamps `01/07/2025:06:00:02`, `01/07/2025:06:00:45`,
`01/07/2025:06:01:10` the buckets are `06:00 ↦ 2`, `06:01 ↦ 1` and the
peak is `06:00` with count 2. -/
theorem C6_minute_buckets_and_peak (rs : List LogRecord) :
    (minuteBuckets rs).Pairwise (fun p q => p.1 < q.1) ∧
    (∀ b ∈ minuteBuckets rs, b.2 = (validMinuteKeys rs).count b.1) ∧
    (∀ pk, peakBucket rs = some pk →
      pk ∈ minuteBuckets rs ∧
      ∀ b ∈ minuteBuckets rs, b.2 ≤ pk.2 ∧ (b.2 = pk.2 → pk.1 ≤ b.1)) ∧
    (minuteBuckets
        [⟨"1.1.1.1", "01/07/2025:06:00:02", "GET /a HTTP/1.1", 200, "u"⟩,
         ⟨"1.1.1.2", "01/07/2025:06:00:45", "GET /b HTTP/1.1", 200, "u"⟩,
         ⟨"1.1.1.3", "01/07/2025:06:01:10", "GET /c HTTP/1.1", 200, "u"⟩] =
        [(mkey 2025 7 1 6 0, 2), (mkey 2025 7 1 6 1, 1)] ∧
     peakBucket
        [⟨"1.1.1.1", "01/07/2025:06:00:02", "GET /a HTTP/1.1", 200, "u"⟩,
         ⟨"1.1.1.2", "01/07/2025:06:00:45", "GET /b HTTP/1.1", 200, "u"⟩,
         ⟨"1.1.1.3", "01/07/2025:06:01:10", "GET /c HTTP/1.1", 200, "u"⟩] =
        some (mkey 2025 7 1 6 0, 2)) := by
  refine ⟨minuteBuckets_sorted rs, minuteBuckets_counts rs, ?_, by decide, by decide⟩
  intro pk hpk
  obtain ⟨hmem, hmax⟩ := peak1_max (minuteBuckets rs) pk hpk
  refine ⟨hmem, fun b hb => ⟨hmax b hb, fun hcnt => ?_⟩⟩
  exact peak1_earliest (minuteBuckets rs) (minuteBuckets_sorted rs) pk hpk b hb hcnt

/-- C6 witness: the peak clause of the theorem applied to the concrete
example. -/
theorem C6_witness :
    (mkey 2025 7 1 6 0, 2) ∈ minuteBuckets
      [⟨"1.1.1.1", "01/07/2025:06:00:02", "GET /a HTTP/1.1", 200, "u"⟩,
       ⟨"1.1.1.2", "01/07/2025:06:00:45", "GET /b HTTP/1.1", 200, "u"⟩,
       ⟨"1.1.1.3", "01/07/2025:06:01:10", "GET /c HTTP/1.1", 200, "u"⟩] :=
  ((C6_minute_buckets_and_peak
      [⟨"1.1.1.1", "01/07/2025:06:00:02", "GET /a HTTP/1.1", 200, "u"⟩,
       ⟨"1.1.1.2", "01/07/2025:06:00:45", "GET /b HTTP/1.1", 200, "u"⟩,
       ⟨"1.1.1.3", "01/07/2025:06:01:10", "GET /c HTTP/1.1", 200, "u"⟩]).2.2.1
    (mkey 2025 7 1 6 0, 2) (by decide)).1

/-! ## Claims about the run on files with no accepted record -/

theorem parse_diags_nil (line : String) : (parse_log_line line).2 = [] := by
  cases hm : reFirstMatch (pyStrip line.toList) with
  | none => rw [parse_eq_of_nomatch hm]
  | some caps => rw [parse_eq_of_match hm]

/-- C7 counterexample: on a file whose single line is `"  x"` (leading
whitespace, no valid entry), the echo event carries the STRIPPED text
`"x"` with a line-number prefix — the raw line `"  x"` is never echoed
verbatim. -/
theorem C7_counterexample :
    analyze_logs ["  x"] =
      Except.ok [Event.analyzing, Event.report 1 0 1, Event.noValidEntries,
                 Event.echoLine 1 "x"] ∧
    Event.echoLine 1 "  x" ∉
      [Event.analyzing, Event.report 1 0 1, Event.noValidEntries,
       Event.echoLine 1 "x"] :=
  ⟨by decide, by decide⟩

/-- C7 amended: on any existing input file from which zero records are
accepted, the run prints the processing report, the diagnostic
explanation, and then echoes each of the first three lines stripped of
surrounding whitespace and prefixed with its 1-based line number (not
verbatim), and stops: no aggregation event and no chart event occurs. -/
theorem C7_zero_accepted_stops (lines : List String)
    (h : ∀ l ∈ lines, (parse_log_line l).1 = none) :
    analyze_logs lines =
      Except.ok ([Event.analyzing,
                  Event.report lines.length 0 lines.length,
                  Event.noValidEntries] ++
        ((lines.take 3).enum.map
          (fun p => Event.echoLine (p.1 + 1) (String.mk (pyStrip p.2.toList))))) ∧
    (∀ path,
      Event.chartSaved path ∉
        ([Event.analyzing, Event.report lines.length 0 lines.length,
          Event.noValidEntries] ++
         ((lines.take 3).enum.map
           (fun p => Event.echoLine (p.1 + 1) (String.mk (pyStrip p.2.toList)))))) := by
  have hentries : (lines.map parse_log_line).filterMap (fun p => p.1) = [] := by
    rw [List.filterMap_map, List.filterMap_eq_nil_iff]
    intro a ha
    exact h a ha
  have hdiags : ((lines.map parse_log_line).map (fun p => p.2)).flatten = [] := by
    rw [List.flatten_eq_nil_iff]
    intro l hl
    rw [List.map_map] at hl
    obtain ⟨a, -, rfl⟩ := List.mem_map.1 hl
    exact parse_diags_nil a
  constructor
  · unfold analyze_logs analyze_core
    simp [hentries, hdiags]
    exact fun a _ => parse_diags_nil a
  · intro path hmem
    rcases List.mem_append.1 hmem with hmem | hmem
    · simp at hmem
    · obtain ⟨p, -, hp⟩ := List.mem_map.1 hmem
      exact Event.noConfusion hp

/-- C7 witness: the theorem applied to a one-line file with no valid
entry. -/
theorem C7_witness :
    analyze_logs ["zzz"] =
      Except.ok ([Event.analyzing, Event.report 1 0 1, Event.noValidEntries] ++
        (([("zzz" : String)].take 3).enum.map
          (fun p => Event.echoLine (p.1 + 1) (String.mk (pyStrip p.2.toList))))) :=
  (C7_zero_accepted_stops ["zzz"] (by decide)).1

/-! ## Claim about crash-freedom on undecodable files -/

/-- C8: the code crashes where the claim says it must not.  A file whose
content is the single byte `0xFF` is read fine by the first `open`
(`errors='replace'` turns it into U+FFFD), yields zero valid entries,
and the zero-entries diagnostic path then re-opens the file WITHOUT
`errors='replace'`; the strict decode of `0xFF` raises an uncaught
`UnicodeDecodeError`, so `analyze_logs` does crash on this path.  The
second conjunct confirms the replaced content really has no parseable
line, i.e. the crash happens exactly on the claim's zero-valid-entries
path. -/
theorem C8_undecodable_echo_crash :
    analyze_logs_bytes [255] = Except.error "UnicodeDecodeError" ∧
    (splitLines (utf8DecodeReplace [255])).all
      (fun l => ((parse_log_line l).1).isNone) = true :=
  ⟨by decide, by decide⟩
